import Mathlib

/-!
Verification of the node-metrics relay core (bounded history window,
derived-aggregate engine, node registry, network state store, subscription
relay) against its specification.

The repository ships the crate root `node-metrics/src/lib.rs`, which declares
the service modules and the generic storage traits; the service implementation
itself (modules `api` and `service`) is not part of the shown sources.  The
definitions below therefore embed the two storage traits directly from the
source, and model the window / aggregates / registry / store / relay
components from the specification, as marked on each definition.
-/

set_option maxHeartbeats 1000000

/-- Modelled from the spec: a block header retained by the Bounded History
Window — height, timestamp, size in bytes, space-used metric, producer node
identifier, and the voters observed for the block (backing the recent-voter
set aggregate). -/
structure BlockHeader where
  height : Nat
  timestamp : Nat
  size : Nat
  spaceUsed : Nat
  producer : Nat
  voters : List Nat
deriving Repr, DecidableEq

/-- Modelled from the spec: the fixed-capacity ordered buffer of the most
recent block headers, ordered by ascending height. -/
structure HistoryWindow where
  capacity : Nat
  blocks : List BlockHeader
deriving Repr, DecidableEq

/-- Modelled from the spec: rejected-mutation and lookup error taxonomy of
the store (OutOfOrderBlock, StaleIdentityReport, StaleStateReport, NotFound). -/
inductive MutError where
  | OutOfOrderBlock
  | StaleIdentityReport
  | StaleStateReport
  | NotFound
deriving Repr, DecidableEq

/-- Decidable equality of results, so that concrete runs of the fallible
operations can be checked by evaluation. -/
instance {e a : Type} [DecidableEq e] [DecidableEq a] :
    DecidableEq (Except e a) := fun x y =>
  match x, y with
  | .error e1, .error e2 =>
      if h : e1 = e2 then isTrue (by rw [h])
      else isFalse (fun hc => h (Except.error.inj hc))
  | .error _, .ok _ => isFalse (fun hc => Except.noConfusion hc)
  | .ok _, .error _ => isFalse (fun hc => Except.noConfusion hc)
  | .ok a1, .ok a2 =>
      if h : a1 = a2 then isTrue (by rw [h])
      else isFalse (fun hc => h (Except.ok.inj hc))

/-- Sort a list of naturals ascending; the canonical form used for the
multiset-valued aggregate fields. -/
def sortNat (l : List Nat) : List Nat :=
  List.insertionSort (fun a b : Nat => a ≤ b) l

/-- Insert one element into an ascending-sorted list of naturals. -/
def insOne (x : Nat) (l : List Nat) : List Nat :=
  List.orderedInsert (fun a b : Nat => a ≤ b) x l

/-- Insert each element of the second list into the sorted first list. -/
def insertAllSorted (s : List Nat) (xs : List Nat) : List Nat :=
  xs.foldl (fun acc x => insOne x acc) s

theorem sortNat_sorted (l : List Nat) :
    List.Sorted (fun a b : Nat => a ≤ b) (sortNat l) :=
  List.sorted_insertionSort _ l

theorem sortNat_perm (l : List Nat) : List.Perm (sortNat l) l :=
  List.perm_insertionSort _ l

theorem sortNat_append_single (l : List Nat) (x : Nat) :
    sortNat (l ++ [x]) = insOne x (sortNat l) := by
  have p1 : List.Perm (sortNat (l ++ [x])) (x :: l) :=
    (sortNat_perm _).trans List.perm_append_comm
  have p2 : List.Perm (x :: l) (insOne x (sortNat l)) :=
    ((sortNat_perm l).symm.cons x).trans
      (List.perm_orderedInsert _ x (sortNat l)).symm
  exact List.eq_of_perm_of_sorted (p1.trans p2) (sortNat_sorted _)
    ((sortNat_sorted l).orderedInsert x _)

theorem sortNat_cons_erase (x : Nat) (l : List Nat) :
    (sortNat (x :: l)).erase x = sortNat l := by
  have p : List.Perm ((sortNat (x :: l)).erase x) l := by
    have h := (sortNat_perm (x :: l)).erase x
    rwa [List.erase_cons_head] at h
  exact List.eq_of_perm_of_sorted (p.trans (sortNat_perm l).symm)
    (List.Pairwise.sublist (List.erase_sublist x _) (sortNat_sorted (x :: l)))
    (sortNat_sorted l)

theorem insertAllSorted_sortNat (xs : List Nat) :
    ∀ l : List Nat, insertAllSorted (sortNat l) xs = sortNat (l ++ xs) := by
  induction xs with
  | nil => intro l; simp [insertAllSorted]
  | cons x xs ih =>
      intro l
      have h1 : insertAllSorted (sortNat l) (x :: xs)
          = insertAllSorted (insOne x (sortNat l)) xs := rfl
      rw [h1, ← sortNat_append_single, ih (l ++ [x])]
      simp

theorem sortNat_append_diff (xs : List Nat) :
    ∀ l : List Nat, (sortNat (xs ++ l)).diff xs = sortNat l := by
  induction xs with
  | nil => intro l; simp
  | cons x xs ih =>
      intro l
      have h1 : ((x :: xs) ++ l) = x :: (xs ++ l) := rfl
      rw [h1, List.diff_cons, sortNat_cons_erase, ih l]

/-- Modelled from the spec: the last element of a list, used for the
maximum-height check of the window and the last timestamp of the window. -/
def lastOf {α : Type} : List α → Option α
  | [] => none
  | [a] => some a
  | _ :: b :: rest => lastOf (b :: rest)

theorem lastOf_cons_ne_none {α : Type} (a : α) (l : List α) :
    lastOf (a :: l) ≠ none := by
  induction l generalizing a with
  | nil => simp [lastOf]
  | cons b rest ih => simpa [lastOf] using ih b

theorem lastOf_append_single {α : Type} (l : List α) (x : α) :
    lastOf (l ++ [x]) = some x := by
  induction l with
  | nil => rfl
  | cons a l ih =>
      cases l with
      | nil => rfl
      | cons b rest => simpa [lastOf] using ih

/-- Gaps between consecutive elements of a timestamp list — the values the
time-between-blocks histogram buckets. -/
def gapsOf : List Nat → List Nat
  | a :: b :: rest => (b - a) :: gapsOf (b :: rest)
  | _ => []

theorem gapsOf_append (x : Nat) :
    ∀ (l : List Nat) (t : Nat), lastOf l = some t →
      gapsOf (l ++ [x]) = gapsOf l ++ [x - t] := by
  intro l
  induction l with
  | nil => intro t ht; cases ht
  | cons a l ih =>
      intro t ht
      cases l with
      | nil =>
          cases ht
          rfl
      | cons b rest =>
          have ht2 : lastOf (b :: rest) = some t := ht
          have h2 := ih t ht2
          show (b - a) :: gapsOf ((b :: rest) ++ [x])
              = ((b - a) :: gapsOf (b :: rest)) ++ [x - t]
          rw [h2]
          rfl

/-- The deterministic ordering of the top-K producer ranking: higher block
count first, ties broken by producer identifier ascending. -/
def rankLE (a b : Nat × Nat) : Prop :=
  b.2 < a.2 ∨ (a.2 = b.2 ∧ a.1 ≤ b.1)

instance : DecidableRel rankLE := fun a b => by
  unfold rankLE
  exact inferInstance

instance : IsTotal (Nat × Nat) rankLE := by
  constructor
  intro a b
  unfold rankLE
  omega

instance : IsTrans (Nat × Nat) rankLE := by
  constructor
  intro a b c hab hbc
  unfold rankLE at hab hbc ⊢
  omega

instance : IsAntisymm (Nat × Nat) rankLE := by
  constructor
  intro a b hab hba
  obtain ⟨x, y⟩ := a
  obtain ⟨z, w⟩ := b
  unfold rankLE at hab hba
  simp only [Prod.mk.injEq]
  omega

/-- Modelled from the spec: the top-K producer ranking, recomputed from the
per-producer block counts of the current window; ties broken deterministically
by producer identifier ascending. -/
def deriveTopK (k : Nat) (prods : List Nat) : List (Nat × Nat) :=
  (List.insertionSort rankLE
    ((prods.dedup).map (fun p => (p, prods.count p)))).take k

/-- Modelled from the spec: the recent-voter set, the union of voters across
the window, kept as a duplicate-free list. -/
def deriveVoterSet (vs : List Nat) : List Nat :=
  vs.dedup

/-- Modelled from the spec: configuration consumed by the aggregates engine —
top-K size and the bucketing functions of the three histograms. -/
structure AggConfig where
  topK : Nat
  sizeBucket : Nat → Nat
  timeBucket : Nat → Nat
  spaceBucket : Nat → Nat

/-- Modelled from the spec: the derived-aggregate state — size, time-between
blocks and space-used histograms (kept as canonical sorted multisets of
bucket values), per-producer and per-voter multisets, the top-K producer
ranking and the recent-voter set, plus the window timestamps the incremental
time-histogram maintenance needs. -/
structure AggState where
  tsQueue : List Nat
  sizes : List Nat
  times : List Nat
  spaces : List Nat
  producers : List Nat
  voters : List Nat
  topProducers : List (Nat × Nat)
  recentVoters : List Nat
deriving Repr, DecidableEq

/-- Concatenation of the voters of all window blocks. -/
def voterList : List BlockHeader → List Nat
  | [] => []
  | b :: bs => b.voters ++ voterList bs

/-- Modelled from the spec: the pure recomputation of every aggregate from
the current window contents alone. -/
def computeAggregates (cfg : AggConfig) (bs : List BlockHeader) : AggState :=
  let prods := sortNat (bs.map BlockHeader.producer)
  let vs := sortNat (voterList bs)
  { tsQueue := bs.map BlockHeader.timestamp
    sizes := sortNat (bs.map (fun b => cfg.sizeBucket b.size))
    times := sortNat ((gapsOf (bs.map BlockHeader.timestamp)).map cfg.timeBucket)
    spaces := sortNat (bs.map (fun b => cfg.spaceBucket b.spaceUsed))
    producers := prods
    voters := vs
    topProducers := deriveTopK cfg.topK prods
    recentVoters := deriveVoterSet vs }

/-- Modelled from the spec: the incremental add-on-insert hook of the
Derived Aggregates Engine — adds the new header's contribution to every
aggregate and refreshes the derived ranking and voter set. -/
def AggState.onInsert (cfg : AggConfig) (a : AggState) (h : BlockHeader) : AggState :=
  let times2 := match lastOf a.tsQueue with
    | some t => insOne (cfg.timeBucket (h.timestamp - t)) a.times
    | none => a.times
  let prods2 := insOne h.producer a.producers
  let vs2 := insertAllSorted a.voters h.voters
  { tsQueue := a.tsQueue ++ [h.timestamp]
    sizes := insOne (cfg.sizeBucket h.size) a.sizes
    times := times2
    spaces := insOne (cfg.spaceBucket h.spaceUsed) a.spaces
    producers := prods2
    voters := vs2
    topProducers := deriveTopK cfg.topK prods2
    recentVoters := deriveVoterSet vs2 }

/-- Modelled from the spec: the incremental subtract-on-evict hook of the
Derived Aggregates Engine — removes the evicted oldest header's contribution
from every aggregate and refreshes the derived ranking and voter set. -/
def AggState.onEvict (cfg : AggConfig) (a : AggState) (h : BlockHeader) : AggState :=
  let times2 := match a.tsQueue with
    | t0 :: t1 :: _ => a.times.erase (cfg.timeBucket (t1 - t0))
    | _ => a.times
  let prods2 := a.producers.erase h.producer
  let vs2 := a.voters.diff h.voters
  { tsQueue := a.tsQueue.tail
    sizes := a.sizes.erase (cfg.sizeBucket h.size)
    times := times2
    spaces := a.spaces.erase (cfg.spaceBucket h.spaceUsed)
    producers := prods2
    voters := vs2
    topProducers := deriveTopK cfg.topK prods2
    recentVoters := deriveVoterSet vs2 }

theorem voterList_append (l1 l2 : List BlockHeader) :
    voterList (l1 ++ l2) = voterList l1 ++ voterList l2 := by
  induction l1 with
  | nil => rfl
  | cons b bs ih => simp [voterList, ih]

theorem onInsert_compute (cfg : AggConfig) (bs : List BlockHeader) (h : BlockHeader) :
    AggState.onInsert cfg (computeAggregates cfg bs) h
      = computeAggregates cfg (bs ++ [h]) := by
  have hts : bs.map BlockHeader.timestamp ++ [h.timestamp]
      = (bs ++ [h]).map BlockHeader.timestamp := by
    simp
  have hsize : insOne (cfg.sizeBucket h.size)
        (sortNat (bs.map (fun b => cfg.sizeBucket b.size)))
      = sortNat ((bs ++ [h]).map (fun b => cfg.sizeBucket b.size)) := by
    simp only [List.map_append, List.map_cons, List.map_nil]
    rw [sortNat_append_single]
  have hspace : insOne (cfg.spaceBucket h.spaceUsed)
        (sortNat (bs.map (fun b => cfg.spaceBucket b.spaceUsed)))
      = sortNat ((bs ++ [h]).map (fun b => cfg.spaceBucket b.spaceUsed)) := by
    simp only [List.map_append, List.map_cons, List.map_nil]
    rw [sortNat_append_single]
  have hprod : insOne h.producer (sortNat (bs.map BlockHeader.producer))
      = sortNat ((bs ++ [h]).map BlockHeader.producer) := by
    simp only [List.map_append, List.map_cons, List.map_nil]
    rw [sortNat_append_single]
  have hvot : insertAllSorted (sortNat (voterList bs)) h.voters
      = sortNat (voterList (bs ++ [h])) := by
    rw [voterList_append, insertAllSorted_sortNat]
    simp [voterList]
  simp only [AggState.onInsert, computeAggregates, AggState.mk.injEq]
  refine ⟨hts, hsize, ?_, hspace, hprod, hvot, by rw [hprod], by rw [hvot]⟩
  cases hlast : lastOf (bs.map BlockHeader.timestamp) with
  | none =>
      cases bs with
      | nil => rfl
      | cons b rest =>
          exact absurd hlast (by
            simpa using lastOf_cons_ne_none (b.timestamp)
              (rest.map BlockHeader.timestamp))
  | some t =>
      rw [← hts, gapsOf_append h.timestamp _ t hlast,
        List.map_append, List.map_cons, List.map_nil, sortNat_append_single]

theorem onEvict_compute (cfg : AggConfig) (b : BlockHeader) (bs : List BlockHeader) :
    AggState.onEvict cfg (computeAggregates cfg (b :: bs)) b
      = computeAggregates cfg bs := by
  have hsize : (sortNat ((b :: bs).map (fun x => cfg.sizeBucket x.size))).erase
        (cfg.sizeBucket b.size)
      = sortNat (bs.map (fun x => cfg.sizeBucket x.size)) := by
    simp only [List.map_cons]
    rw [sortNat_cons_erase]
  have hspace : (sortNat ((b :: bs).map (fun x => cfg.spaceBucket x.spaceUsed))).erase
        (cfg.spaceBucket b.spaceUsed)
      = sortNat (bs.map (fun x => cfg.spaceBucket x.spaceUsed)) := by
    simp only [List.map_cons]
    rw [sortNat_cons_erase]
  have hprod : (sortNat ((b :: bs).map BlockHeader.producer)).erase b.producer
      = sortNat (bs.map BlockHeader.producer) := by
    simp only [List.map_cons]
    rw [sortNat_cons_erase]
  have hvot : (sortNat (voterList (b :: bs))).diff b.voters
      = sortNat (voterList bs) := by
    have hv : voterList (b :: bs) = b.voters ++ voterList bs := rfl
    rw [hv, sortNat_append_diff]
  simp only [AggState.onEvict, computeAggregates, AggState.mk.injEq]
  refine ⟨rfl, hsize, ?_, hspace, hprod, hvot, by rw [hprod], by rw [hvot]⟩
  cases bs with
  | nil => rfl
  | cons b1 rest =>
      have hg : gapsOf (b.timestamp :: b1.timestamp :: rest.map BlockHeader.timestamp)
          = (b1.timestamp - b.timestamp)
            :: gapsOf (b1.timestamp :: rest.map BlockHeader.timestamp) := rfl
      simp only [List.map_cons, hg]
      rw [sortNat_cons_erase]

/-- Modelled from the spec: append the accepted header, then if the length
exceeds the capacity evict the single oldest entry, returning it. -/
def HistoryWindow.push (w : HistoryWindow) (h : BlockHeader) :
    HistoryWindow × Option BlockHeader :=
  let appended := w.blocks ++ [h]
  if w.capacity < appended.length then
    (⟨w.capacity, appended.tail⟩, appended.head?)
  else
    (⟨w.capacity, appended⟩, none)

/-- Modelled from the spec: the insert contract of the Bounded History
Window — accept when the height is above the window maximum (or the window
is empty), otherwise fail with OutOfOrderBlock. -/
def HistoryWindow.insert (w : HistoryWindow) (h : BlockHeader) :
    Except MutError (HistoryWindow × Option BlockHeader) :=
  match lastOf w.blocks with
  | some lastB =>
      if h.height ≤ lastB.height then .error .OutOfOrderBlock
      else .ok (w.push h)
  | none => .ok (w.push h)

/-- Modelled from the spec: a node identity record with the logical timestamp
of the accepted self-report. -/
structure NodeIdentityRec where
  info : String
  logicalTimestamp : Nat
deriving Repr, DecidableEq

/-- Modelled from the spec: per-node participation state — voter
participation count, latest observed block height, staking amount. -/
structure NodeStateRec where
  voterCount : Nat
  blockHeight : Nat
  stake : Nat
deriving Repr, DecidableEq

/-- Modelled from the spec: the registry entry of one node — its identity
and participation state, either of which may not have been reported yet. -/
structure RegistryEntry where
  identity : Option NodeIdentityRec
  nodeState : Option NodeStateRec
deriving Repr, DecidableEq

/-- Modelled from the spec: the Node Registry, a mapping from the node
identifier to its entry. -/
abbrev Registry : Type := List (String × RegistryEntry)

/-- Look up the entry bound to a node identifier. -/
def regFind : Registry → String → Option RegistryEntry
  | [], _ => none
  | (k2, e2) :: rest, k => if k2 = k then some e2 else regFind rest k

/-- Replace the entry bound to a key, leaving other bindings untouched. -/
def setEntry : Registry → String → RegistryEntry → Registry
  | [], _, _ => []
  | (k2, e2) :: rest, k, e =>
      if k2 = k then (k, e) :: rest else (k2, e2) :: setEntry rest k e

/-- Store an identity into the registry, inserting a fresh entry for an
unseen node and merging into the existing entry otherwise. -/
def regSetIdentity (r : Registry) (k : String) (idrec : NodeIdentityRec) : Registry :=
  match regFind r k with
  | none => r ++ [(k, ⟨some idrec, none⟩)]
  | some e => setEntry r k { e with identity := some idrec }

/-- Store a participation state into the registry, inserting a fresh entry
for an unseen node and merging into the existing entry otherwise. -/
def regSetState (r : Registry) (k : String) (st : NodeStateRec) : Registry :=
  match regFind r k with
  | none => r ++ [(k, ⟨none, some st⟩)]
  | some e => setEntry r k { e with nodeState := some st }

/-- Modelled from the spec: reportIdentity — inserts if unseen; replaces the
existing identity only if the logical timestamp is strictly greater than the
stored one, else fails with StaleIdentityReport. -/
def reportIdentity (r : Registry) (k : String) (idrec : NodeIdentityRec) :
    Except MutError Registry :=
  match regFind r k with
  | none => .ok (regSetIdentity r k idrec)
  | some e =>
      match e.identity with
      | none => .ok (regSetIdentity r k idrec)
      | some old =>
          if old.logicalTimestamp < idrec.logicalTimestamp then
            .ok (regSetIdentity r k idrec)
          else .error .StaleIdentityReport

/-- Modelled from the spec: reportState — inserts or updates under the
monotonicity invariant: a report with block height at most the recorded one
and not flagged as backfill fails with StaleStateReport. -/
def reportState (r : Registry) (k : String) (st : NodeStateRec)
    (backfill : Bool) : Except MutError Registry :=
  match regFind r k with
  | none => .ok (regSetState r k st)
  | some e =>
      match e.nodeState with
      | none => .ok (regSetState r k st)
      | some old =>
          if st.blockHeight ≤ old.blockHeight ∧ backfill = false then
            .error .StaleStateReport
          else .ok (regSetState r k st)

/-- Modelled from the spec: registry lookup, failing with NotFound when the
node identifier is absent. -/
def Registry.get (r : Registry) (k : String) : Except MutError RegistryEntry :=
  match regFind r k with
  | some e => .ok e
  | none => .error .NotFound

/-- Modelled from the spec: the composite NetworkState — window, aggregates
and registry, the single unit readers observe. -/
structure NetworkState where
  window : HistoryWindow
  agg : AggState
  registry : Registry
deriving DecidableEq

/-- Modelled from the spec: the normalized mutation operations the Network
State Store processes one at a time in arrival order. -/
inductive Mutation where
  | block (h : BlockHeader)
  | identityReport (nodeId : String) (idrec : NodeIdentityRec)
  | stateReport (nodeId : String) (st : NodeStateRec) (backfill : Bool)
deriving Repr, DecidableEq

/-- Modelled from the spec: a StateDelta — a tagged description of exactly
what changed in one accepted mutation. -/
inductive StateDelta where
  | blockAdded (h : BlockHeader) (evicted : Option BlockHeader)
  | identityChanged (nodeId : String) (idrec : NodeIdentityRec)
  | stateChanged (nodeId : String) (st : NodeStateRec)
deriving Repr, DecidableEq

/-- Apply the evict hook for the evicted header, when one was evicted. -/
def evApply (cfg : AggConfig) (a : AggState) : Option BlockHeader → AggState
  | some b => AggState.onEvict cfg a b
  | none => a

/-- Modelled from the spec: apply one mutation to the store — the window is
updated first, then the aggregate hooks run (evict old, then insert new),
and an accepted mutation produces the StateDelta handed to the relay. -/
def applyMutation (cfg : AggConfig) (s : NetworkState) :
    Mutation → Except MutError (NetworkState × StateDelta)
  | .block h =>
      match s.window.insert h with
      | .error e => .error e
      | .ok (w2, ev) =>
          let agg2 := AggState.onInsert cfg (evApply cfg s.agg ev) h
          .ok ({ s with window := w2, agg := agg2 }, .blockAdded h ev)
  | .identityReport k idrec =>
      match reportIdentity s.registry k idrec with
      | .error e => .error e
      | .ok r2 => .ok ({ s with registry := r2 }, .identityChanged k idrec)
  | .stateReport k st bf =>
      match reportState s.registry k st bf with
      | .error e => .error e
      | .ok r2 => .ok ({ s with registry := r2 }, .stateChanged k st)

/-- Modelled from the spec: one serialized step of the Network State Store —
a rejected mutation produces no delta and leaves the state unchanged. -/
def step (cfg : AggConfig) (s : NetworkState) (m : Mutation) :
    NetworkState × Option StateDelta :=
  match applyMutation cfg s m with
  | .ok (s2, d) => (s2, some d)
  | .error _ => (s, none)

/-- Run the store over a sequence of mutations from a starting state. -/
def runFrom (cfg : AggConfig) (s : NetworkState) : List Mutation → NetworkState
  | [] => s
  | m :: ms => runFrom cfg (step cfg s m).1 ms

/-- Modelled from the spec: the initial NetworkState at service start — an
empty window of capacity N, aggregates of the empty window, empty registry. -/
def initState (cfg : AggConfig) (n : Nat) : NetworkState :=
  { window := ⟨n, []⟩
    agg := computeAggregates cfg []
    registry := [] }

/-- Run the store over a sequence of mutations from the empty start state. -/
def runStore (cfg : AggConfig) (n : Nat) (ms : List Mutation) : NetworkState :=
  runFrom cfg (initState cfg n) ms

/-- The Bounded History Window invariant: positive capacity (a zero capacity
is a startup-time fatal misconfiguration), length bounded by the capacity,
and blocks strictly ascending by height. -/
def WindowInv (w : HistoryWindow) : Prop :=
  0 < w.capacity ∧ w.blocks.length ≤ w.capacity ∧
  List.Chain' (fun a b : BlockHeader => a.height < b.height) w.blocks

/-- The Network State Store invariant: the window invariant plus the
aggregates being exactly the pure recomputation from the window contents. -/
def StoreInv (cfg : AggConfig) (s : NetworkState) : Prop :=
  WindowInv s.window ∧ s.agg = computeAggregates cfg s.window.blocks

theorem push_analysis (w : HistoryWindow) (h : BlockHeader)
    (hcap : 0 < w.capacity) (hlen : w.blocks.length ≤ w.capacity) :
    (w.push h = (⟨w.capacity, w.blocks ++ [h]⟩, none)
      ∧ w.blocks.length < w.capacity) ∨
    (∃ b rest, w.blocks = b :: rest
      ∧ w.push h = (⟨w.capacity, rest ++ [h]⟩, some b)
      ∧ w.blocks.length = w.capacity) := by
  have h1 : (w.blocks ++ [h]).length = w.blocks.length + 1 := by simp
  by_cases hc : w.capacity < (w.blocks ++ [h]).length
  · right
    have heq : w.blocks.length = w.capacity := by omega
    cases hb : w.blocks with
    | nil =>
        exfalso
        rw [hb] at heq
        simp at heq
        omega
    | cons b rest =>
        rw [hb] at heq
        refine ⟨b, rest, rfl, ?_, heq⟩
        simp only [HistoryWindow.push]
        rw [if_pos hc, hb]
        simp
  · left
    refine ⟨?_, by omega⟩
    simp only [HistoryWindow.push]
    rw [if_neg hc]

theorem insert_ok_push (w : HistoryWindow) (h : BlockHeader)
    (w2 : HistoryWindow) (ev : Option BlockHeader)
    (hok : w.insert h = .ok (w2, ev)) :
    (w2, ev) = w.push h ∧
    (∀ lastB, lastOf w.blocks = some lastB → lastB.height < h.height) := by
  unfold HistoryWindow.insert at hok
  generalize hl : lastOf w.blocks = ol at hok
  cases ol with
  | none =>
      have hok2 : (Except.ok (w.push h)
          : Except MutError (HistoryWindow × Option BlockHeader))
          = Except.ok (w2, ev) := hok
      refine ⟨(Except.ok.inj hok2).symm, ?_⟩
      intro lastB hlb
      cases hlb
  | some lastB =>
      have hok2 : (if h.height ≤ lastB.height
          then (Except.error MutError.OutOfOrderBlock
            : Except MutError (HistoryWindow × Option BlockHeader))
          else Except.ok (w.push h)) = Except.ok (w2, ev) := hok
      by_cases hle : h.height ≤ lastB.height
      · rw [if_pos hle] at hok2
        cases hok2
      · rw [if_neg hle] at hok2
        refine ⟨(Except.ok.inj hok2).symm, ?_⟩
        intro lb hlb
        cases hlb
        omega

theorem chain_append_single {R : BlockHeader → BlockHeader → Prop}
    (x : BlockHeader) :
    ∀ l : List BlockHeader, List.Chain' R l →
      (∀ b, lastOf l = some b → R b x) → List.Chain' R (l ++ [x]) := by
  intro l
  induction l with
  | nil => intro _ _; simp
  | cons a l ih =>
      intro hch hlast
      cases l with
      | nil =>
          have hr : R a x := hlast a rfl
          simp [List.chain'_cons, hr]
      | cons b rest =>
          have hch2 := List.chain'_cons.mp hch
          have hih := ih hch2.2 (fun c hc => hlast c hc)
          simp only [List.cons_append] at hih ⊢
          exact List.chain'_cons.mpr ⟨hch2.1, hih⟩

theorem chain_head_le (c : BlockHeader) :
    ∀ l : List BlockHeader,
      List.Chain' (fun a b : BlockHeader => a.height < b.height) (c :: l) →
      ∀ b ∈ c :: l, c.height ≤ b.height := by
  intro l
  induction l generalizing c with
  | nil =>
      intro _ b hb
      rw [List.mem_singleton] at hb
      rw [hb]
  | cons d rest ih =>
      intro hch b hb
      have h1 := List.chain'_cons.mp hch
      rcases List.mem_cons.mp hb with heq | hb2
      · rw [heq]
      · have h2 := ih d h1.2 b hb2
        omega

/-- The maximum block height present in a window. -/
def maxHeightOf (bs : List BlockHeader) : Nat :=
  bs.foldr (fun b m => max b.height m) 0

theorem maxHeightOf_le_last :
    ∀ (bs : List BlockHeader) (lastB : BlockHeader),
      List.Chain' (fun a b : BlockHeader => a.height < b.height) bs →
      lastOf bs = some lastB → maxHeightOf bs ≤ lastB.height := by
  intro bs
  induction bs with
  | nil => intro lastB _ hl; cases hl
  | cons a l ih =>
      intro lastB hch hl
      cases l with
      | nil =>
          cases hl
          show max a.height (maxHeightOf []) ≤ a.height
          simp [maxHeightOf]
      | cons b rest =>
          have h1 := List.chain'_cons.mp hch
          have h2 := ih lastB h1.2 hl
          have h3 : a.height < b.height := h1.1
          have h4 : b.height ≤ maxHeightOf (b :: rest) :=
            Nat.le_max_left b.height (maxHeightOf rest)
          show max a.height (maxHeightOf (b :: rest)) ≤ lastB.height
          exact Nat.max_le.mpr ⟨by omega, h2⟩

theorem step_block_ok (cfg : AggConfig) (s : NetworkState) (h : BlockHeader)
    (w2 : HistoryWindow) (ev : Option BlockHeader)
    (hi : s.window.insert h = .ok (w2, ev)) :
    step cfg s (.block h) =
      ({ window := w2
         agg := AggState.onInsert cfg (evApply cfg s.agg ev) h
         registry := s.registry },
       some (.blockAdded h ev)) := by
  simp only [step, applyMutation, hi]

theorem step_block_err (cfg : AggConfig) (s : NetworkState) (h : BlockHeader)
    (e : MutError) (hi : s.window.insert h = .error e) :
    step cfg s (.block h) = (s, none) := by
  simp only [step, applyMutation, hi]

theorem step_identity_ok (cfg : AggConfig) (s : NetworkState) (k : String)
    (idrec : NodeIdentityRec) (r2 : Registry)
    (hr : reportIdentity s.registry k idrec = .ok r2) :
    step cfg s (.identityReport k idrec)
      = ({ s with registry := r2 }, some (.identityChanged k idrec)) := by
  simp only [step, applyMutation, hr]

theorem step_identity_err (cfg : AggConfig) (s : NetworkState) (k : String)
    (idrec : NodeIdentityRec) (e : MutError)
    (hr : reportIdentity s.registry k idrec = .error e) :
    step cfg s (.identityReport k idrec) = (s, none) := by
  simp only [step, applyMutation, hr]

theorem step_state_ok (cfg : AggConfig) (s : NetworkState) (k : String)
    (st : NodeStateRec) (bf : Bool) (r2 : Registry)
    (hr : reportState s.registry k st bf = .ok r2) :
    step cfg s (.stateReport k st bf)
      = ({ s with registry := r2 }, some (.stateChanged k st)) := by
  simp only [step, applyMutation, hr]

theorem step_state_err (cfg : AggConfig) (s : NetworkState) (k : String)
    (st : NodeStateRec) (bf : Bool) (e : MutError)
    (hr : reportState s.registry k st bf = .error e) :
    step cfg s (.stateReport k st bf) = (s, none) := by
  simp only [step, applyMutation, hr]

theorem push_capacity (w : HistoryWindow) (h : BlockHeader) :
    (w.push h).1.capacity = w.capacity := by
  simp only [HistoryWindow.push]
  by_cases hc : w.capacity < (w.blocks ++ [h]).length
  · rw [if_pos hc]
  · rw [if_neg hc]

theorem step_preserves_inv (cfg : AggConfig) (s : NetworkState) (m : Mutation)
    (hinv : StoreInv cfg s) : StoreInv cfg (step cfg s m).1 := by
  obtain ⟨⟨hcap, hlen, hch⟩, hagg⟩ := hinv
  cases m with
  | identityReport k idrec =>
      cases hr : reportIdentity s.registry k idrec with
      | error e =>
          rw [step_identity_err cfg s k idrec e hr]
          exact ⟨⟨hcap, hlen, hch⟩, hagg⟩
      | ok r2 =>
          rw [step_identity_ok cfg s k idrec r2 hr]
          exact ⟨⟨hcap, hlen, hch⟩, hagg⟩
  | stateReport k st bf =>
      cases hr : reportState s.registry k st bf with
      | error e =>
          rw [step_state_err cfg s k st bf e hr]
          exact ⟨⟨hcap, hlen, hch⟩, hagg⟩
      | ok r2 =>
          rw [step_state_ok cfg s k st bf r2 hr]
          exact ⟨⟨hcap, hlen, hch⟩, hagg⟩
  | block h =>
      cases hi : s.window.insert h with
      | error e =>
          rw [step_block_err cfg s h e hi]
          exact ⟨⟨hcap, hlen, hch⟩, hagg⟩
      | ok p =>
          obtain ⟨w2, ev⟩ := p
          rw [step_block_ok cfg s h w2 ev hi]
          obtain ⟨hpush, hlt⟩ := insert_ok_push s.window h w2 ev hi
          rcases push_analysis s.window h hcap hlen with
            ⟨hp, hlt2⟩ | ⟨b, rest, hb, hp, hfull⟩
          · rw [hp] at hpush
            have hw2 : w2 = ⟨s.window.capacity, s.window.blocks ++ [h]⟩ :=
              congrArg Prod.fst hpush
            have hev : ev = none := congrArg Prod.snd hpush
            rw [hw2, hev]
            refine ⟨⟨hcap, by simpa using hlt2, ?_⟩, ?_⟩
            · exact chain_append_single h s.window.blocks hch hlt
            · show AggState.onInsert cfg (evApply cfg s.agg none) h
                = computeAggregates cfg (s.window.blocks ++ [h])
              rw [show evApply cfg s.agg none = s.agg from rfl, hagg,
                onInsert_compute]
          · rw [hp] at hpush
            have hw2 : w2 = ⟨s.window.capacity, rest ++ [h]⟩ :=
              congrArg Prod.fst hpush
            have hev : ev = some b := congrArg Prod.snd hpush
            rw [hw2, hev]
            have hlen2 : (rest ++ [h]).length ≤ s.window.capacity := by
              rw [hb] at hfull
              simp at hfull ⊢
              omega
            have hch2 : List.Chain'
                (fun a c : BlockHeader => a.height < c.height) rest := by
              rw [hb] at hch
              exact hch.tail
            refine ⟨⟨hcap, hlen2, ?_⟩, ?_⟩
            · refine chain_append_single h rest hch2 ?_
              intro c hc
              cases rest with
              | nil => cases hc
              | cons r1 rs =>
                  refine hlt c ?_
                  rw [hb]
                  exact hc
            · show AggState.onInsert cfg (evApply cfg s.agg (some b)) h
                = computeAggregates cfg (rest ++ [h])
              have he : evApply cfg s.agg (some b)
                  = AggState.onEvict cfg s.agg b := rfl
              rw [he, hagg, hb, onEvict_compute, onInsert_compute]

theorem initState_inv (cfg : AggConfig) (n : Nat) (hn : 0 < n) :
    StoreInv cfg (initState cfg n) := by
  exact ⟨⟨hn, by simp [initState], by simp [initState]⟩, rfl⟩

theorem runFrom_inv (cfg : AggConfig) :
    ∀ (ms : List Mutation) (s : NetworkState), StoreInv cfg s →
      StoreInv cfg (runFrom cfg s ms) := by
  intro ms
  induction ms with
  | nil => intro s hs; exact hs
  | cons m ms ih => intro s hs; exact ih _ (step_preserves_inv cfg s m hs)

theorem step_capacity (cfg : AggConfig) (s : NetworkState) (m : Mutation) :
    (step cfg s m).1.window.capacity = s.window.capacity := by
  cases m with
  | block h =>
      cases hi : s.window.insert h with
      | error e => rw [step_block_err cfg s h e hi]
      | ok p =>
          obtain ⟨w2, ev⟩ := p
          rw [step_block_ok cfg s h w2 ev hi]
          obtain ⟨hpush, _⟩ := insert_ok_push s.window h w2 ev hi
          have hw2 : w2 = (s.window.push h).1 := congrArg Prod.fst hpush
          show w2.capacity = s.window.capacity
          rw [hw2, push_capacity]
  | identityReport k idrec =>
      cases hr : reportIdentity s.registry k idrec with
      | error e => rw [step_identity_err cfg s k idrec e hr]
      | ok r2 => rw [step_identity_ok cfg s k idrec r2 hr]
  | stateReport k st bf =>
      cases hr : reportState s.registry k st bf with
      | error e => rw [step_state_err cfg s k st bf e hr]
      | ok r2 => rw [step_state_ok cfg s k st bf r2 hr]

theorem runFrom_capacity (cfg : AggConfig) :
    ∀ (ms : List Mutation) (s : NetworkState),
      (runFrom cfg s ms).window.capacity = s.window.capacity := by
  intro ms
  induction ms with
  | nil => intro s; rfl
  | cons m ms ih =>
      intro s
      have h1 : runFrom cfg s (m :: ms) = runFrom cfg (step cfg s m).1 ms := rfl
      rw [h1, ih, step_capacity]

/-- A concrete configuration used by the executable examples: identity
bucketing and a top-K size of 10. -/
def unitConfig : AggConfig :=
  { topK := 10
    sizeBucket := fun v => v
    timeBucket := fun v => v
    spaceBucket := fun v => v }

/-- A concrete block header of the given height used by the examples. -/
def testHdr (v : Nat) : BlockHeader :=
  { height := v
    timestamp := 10 * v
    size := v
    spaceUsed := v
    producer := v % 2
    voters := [v % 3] }

/-- C1: for every sequence of insert operations on the Bounded History
Window with strictly increasing block heights, the window length never
exceeds the capacity N, and when an insert overflows the window exactly the
single oldest entry — the one of lowest height — is evicted first. -/
theorem C1_window_bounded_evicts_oldest (cfg : AggConfig) (n : Nat)
    (hs : List BlockHeader) (hn : 0 < n)
    (hinc : List.Chain' (fun a b : BlockHeader => a.height < b.height) hs) :
    (runStore cfg n (hs.map Mutation.block)).window.blocks.length ≤ n ∧
    (∀ h w2 ev,
      (runStore cfg n (hs.map Mutation.block)).window.insert h
          = .ok (w2, some ev) →
      (runStore cfg n (hs.map Mutation.block)).window.blocks.head? = some ev ∧
      w2.blocks
        = (runStore cfg n (hs.map Mutation.block)).window.blocks.tail ++ [h] ∧
      ∀ b ∈ (runStore cfg n (hs.map Mutation.block)).window.blocks,
        ev.height ≤ b.height) := by
  obtain ⟨⟨hcap, hlen, hch⟩, _⟩ :=
    runFrom_inv cfg (hs.map Mutation.block) (initState cfg n)
      (initState_inv cfg n hn)
  have hcap2 : 0 < (runStore cfg n (hs.map Mutation.block)).window.capacity :=
    hcap
  have hlen2 : (runStore cfg n (hs.map Mutation.block)).window.blocks.length
      ≤ (runStore cfg n (hs.map Mutation.block)).window.capacity := hlen
  have hch2 : List.Chain' (fun a b : BlockHeader => a.height < b.height)
      (runStore cfg n (hs.map Mutation.block)).window.blocks := hch
  have hcapn : (runStore cfg n (hs.map Mutation.block)).window.capacity = n :=
    runFrom_capacity cfg (hs.map Mutation.block) (initState cfg n)
  constructor
  · exact le_of_le_of_eq hlen2 hcapn
  · intro h w2 ev hok
    obtain ⟨hpush, hlt⟩ :=
      insert_ok_push (runStore cfg n (hs.map Mutation.block)).window h w2
        (some ev) hok
    rcases push_analysis (runStore cfg n (hs.map Mutation.block)).window h
        hcap2 hlen2 with
      ⟨hp, _⟩ | ⟨b, rest, hb, hp, hfull⟩
    · rw [hp] at hpush
      exact Option.noConfusion (congrArg Prod.snd hpush)
    · rw [hp] at hpush
      have hw2 : w2 = ⟨(runStore cfg n (hs.map Mutation.block)).window.capacity,
          rest ++ [h]⟩ := congrArg Prod.fst hpush
      have hevb : ev = b := Option.some.inj (congrArg Prod.snd hpush)
      refine ⟨?_, ?_, ?_⟩
      · rw [hb, hevb]
        rfl
      · rw [hw2, hb]
        rfl
      · intro c hc
        rw [hevb]
        rw [hb] at hc hch2
        exact chain_head_le b rest hch2 c hc

theorem C1_witness :
    0 < 2 ∧
    List.Chain' (fun a b : BlockHeader => a.height < b.height)
      [testHdr 1, testHdr 2, testHdr 3] ∧
    ((runStore unitConfig 2
        ([testHdr 1, testHdr 2, testHdr 3].map Mutation.block)).window.blocks.length ≤ 2 ∧
    (∀ h w2 ev,
      (runStore unitConfig 2
          ([testHdr 1, testHdr 2, testHdr 3].map Mutation.block)).window.insert h
          = .ok (w2, some ev) →
      (runStore unitConfig 2
          ([testHdr 1, testHdr 2, testHdr 3].map Mutation.block)).window.blocks.head?
          = some ev ∧
      w2.blocks
        = (runStore unitConfig 2
            ([testHdr 1, testHdr 2, testHdr 3].map Mutation.block)).window.blocks.tail
          ++ [h] ∧
      ∀ b ∈ (runStore unitConfig 2
          ([testHdr 1, testHdr 2, testHdr 3].map Mutation.block)).window.blocks,
        ev.height ≤ b.height)) :=
  ⟨by decide,
    List.chain'_cons.mpr ⟨by decide,
      List.chain'_cons.mpr ⟨by decide, List.chain'_singleton _⟩⟩,
    C1_window_bounded_evicts_oldest unitConfig 2 [testHdr 1, testHdr 2, testHdr 3]
      (by decide)
      (List.chain'_cons.mpr ⟨by decide,
        List.chain'_cons.mpr ⟨by decide, List.chain'_singleton _⟩⟩)⟩

/-- The four-block example mutation sequence of the specification: heights
1, 2, 3, 4 inserted in order. -/
def exampleBlocks : List Mutation :=
  [testHdr 1, testHdr 2, testHdr 3, testHdr 4].map Mutation.block

/-- C2: for every window state and header whose height is at most the
current maximum of a nonempty window, the insert fails with OutOfOrderBlock
and leaves window and aggregates exactly unchanged; with N=3, inserting
heights 1,2,3,4 yields window [2,3,4], and a subsequent insert of height 3
is rejected leaving the state unchanged. -/
theorem C2_out_of_order_rejected_unchanged (cfg : AggConfig)
    (s : NetworkState) (h : BlockHeader)
    (hch : List.Chain' (fun a b : BlockHeader => a.height < b.height)
      s.window.blocks)
    (hne : s.window.blocks ≠ [])
    (hle : h.height ≤ maxHeightOf s.window.blocks) :
    applyMutation cfg s (.block h) = .error .OutOfOrderBlock ∧
    step cfg s (.block h) = (s, none) ∧
    (runStore unitConfig 3 exampleBlocks).window.blocks.map BlockHeader.height
      = [2, 3, 4] ∧
    step unitConfig (runStore unitConfig 3 exampleBlocks) (.block (testHdr 3))
      = (runStore unitConfig 3 exampleBlocks, none) := by
  have hex : ∃ lastB, lastOf s.window.blocks = some lastB := by
    cases hbs : s.window.blocks with
    | nil => exact absurd hbs hne
    | cons a l =>
        cases hll : lastOf (a :: l) with
        | none => exact absurd hll (lastOf_cons_ne_none a l)
        | some x => exact ⟨x, rfl⟩
  obtain ⟨lastB, hlast⟩ := hex
  have hhle : h.height ≤ lastB.height :=
    le_trans hle (maxHeightOf_le_last s.window.blocks lastB hch hlast)
  have herr : s.window.insert h = .error .OutOfOrderBlock := by
    unfold HistoryWindow.insert
    rw [hlast]
    show (if h.height ≤ lastB.height
        then (Except.error MutError.OutOfOrderBlock
          : Except MutError (HistoryWindow × Option BlockHeader))
        else Except.ok (s.window.push h)) = Except.error MutError.OutOfOrderBlock
    rw [if_pos hhle]
  refine ⟨?_, step_block_err cfg s h _ herr, by decide, by decide⟩
  simp only [applyMutation, herr]

theorem C2_witness :
    (List.Chain' (fun a b : BlockHeader => a.height < b.height)
      (runStore unitConfig 3 exampleBlocks).window.blocks ∧
    (runStore unitConfig 3 exampleBlocks).window.blocks ≠ [] ∧
    (testHdr 3).height
      ≤ maxHeightOf (runStore unitConfig 3 exampleBlocks).window.blocks) ∧
    applyMutation unitConfig (runStore unitConfig 3 exampleBlocks)
        (.block (testHdr 3)) = .error .OutOfOrderBlock ∧
    step unitConfig (runStore unitConfig 3 exampleBlocks) (.block (testHdr 3))
      = (runStore unitConfig 3 exampleBlocks, none) ∧
    (runStore unitConfig 3 exampleBlocks).window.blocks.map BlockHeader.height
      = [2, 3, 4] ∧
    step unitConfig (runStore unitConfig 3 exampleBlocks) (.block (testHdr 3))
      = (runStore unitConfig 3 exampleBlocks, none) := by
  have hch : List.Chain' (fun a b : BlockHeader => a.height < b.height)
      (runStore unitConfig 3 exampleBlocks).window.blocks :=
    List.chain'_cons.mpr ⟨by decide,
      List.chain'_cons.mpr ⟨by decide, List.chain'_singleton _⟩⟩
  exact ⟨⟨hch, by decide, by decide⟩,
    C2_out_of_order_rejected_unchanged unitConfig
      (runStore unitConfig 3 exampleBlocks) (testHdr 3) hch
      (by decide) (by decide)⟩

/-- C3: after every sequence of store mutations, the incrementally
maintained aggregates — size, time-between-blocks and space-used histograms,
top-K producer ranking and recent-voter set — equal the pure recomputation
from the current window contents alone. -/
theorem C3_aggregates_equal_recompute (cfg : AggConfig) (n : Nat)
    (ms : List Mutation) (hn : 0 < n) :
    (runStore cfg n ms).agg
      = computeAggregates cfg (runStore cfg n ms).window.blocks :=
  (runFrom_inv cfg ms (initState cfg n) (initState_inv cfg n hn)).2

theorem C3_witness :
    0 < 3 ∧
    (runStore unitConfig 3 exampleBlocks).agg
      = computeAggregates unitConfig
          (runStore unitConfig 3 exampleBlocks).window.blocks :=
  ⟨by decide, C3_aggregates_equal_recompute unitConfig 3 exampleBlocks
    (by decide)⟩

theorem regFind_append_self (k : String) (e : RegistryEntry) :
    ∀ r : Registry, regFind r k = none →
      regFind (r ++ [(k, e)]) k = some e := by
  intro r
  induction r with
  | nil => intro _; simp [regFind]
  | cons p rest ih =>
      intro hnone
      obtain ⟨k2, e2⟩ := p
      by_cases heq : k2 = k
      · simp [regFind, heq] at hnone
      · simp only [List.cons_append, regFind, if_neg heq] at hnone ⊢
        exact ih hnone

theorem regFind_setEntry (k : String) (e : RegistryEntry) :
    ∀ r : Registry, (∃ e0, regFind r k = some e0) →
      regFind (setEntry r k e) k = some e := by
  intro r
  induction r with
  | nil =>
      intro h0
      obtain ⟨e0, h0⟩ := h0
      cases h0
  | cons p rest ih =>
      intro h0
      obtain ⟨e0, h0⟩ := h0
      obtain ⟨k2, e2⟩ := p
      by_cases heq : k2 = k
      · simp [setEntry, regFind, heq]
      · simp only [regFind, if_neg heq] at h0
        simp only [setEntry, if_neg heq, regFind]
        exact ih ⟨e0, h0⟩

/-- A concrete participation state of the given block height used by the
examples. -/
def stRec (hgt : Nat) : NodeStateRec :=
  { voterCount := 0, blockHeight := hgt, stake := 0 }

/-- The registry obtained after the example report (node A, height 10). -/
def exampleStateRegistry : Registry :=
  (runStore unitConfig 3 [.stateReport "A" (stRec 10) false]).registry

/-- C5: a state report for an already-present node whose block height is at
most the recorded one and not flagged backfill fails with StaleStateReport
and leaves the stored state unchanged; after reports (A, height 10) then
(A, height 5), the second fails and the registry still reports height 10. -/
theorem C5_stale_state_report_rejected (r : Registry) (k : String)
    (st : NodeStateRec) (e : RegistryEntry) (old : NodeStateRec)
    (hfind : regFind r k = some e) (hstate : e.nodeState = some old)
    (hle : st.blockHeight ≤ old.blockHeight) :
    reportState r k st false = .error .StaleStateReport ∧
    (∀ cfg s, s.registry = r →
      step cfg s (.stateReport k st false) = (s, none)) ∧
    reportState exampleStateRegistry "A" (stRec 5) false
      = .error .StaleStateReport ∧
    (runStore unitConfig 3 [.stateReport "A" (stRec 10) false,
        .stateReport "A" (stRec 5) false]).registry = exampleStateRegistry ∧
    Registry.get (runStore unitConfig 3 [.stateReport "A" (stRec 10) false,
        .stateReport "A" (stRec 5) false]).registry "A"
      = .ok ⟨none, some (stRec 10)⟩ := by
  have herr : reportState r k st false = .error .StaleStateReport := by
    simp only [reportState, hfind, hstate]
    rw [if_pos ⟨hle, trivial⟩]
  refine ⟨herr, ?_, by decide, by decide, by decide⟩
  intro cfg s hreg
  refine step_state_err cfg s k st false .StaleStateReport ?_
  rw [hreg]
  exact herr

theorem C5_witness :
    regFind exampleStateRegistry "A" = some ⟨none, some (stRec 10)⟩ ∧
    (stRec 5).blockHeight ≤ (stRec 10).blockHeight ∧
    reportState exampleStateRegistry "A" (stRec 5) false
      = .error .StaleStateReport :=
  ⟨by decide, by decide,
    (C5_stale_state_report_rejected exampleStateRegistry "A" (stRec 5)
      ⟨none, some (stRec 10)⟩ (stRec 10) (by decide) rfl (by decide)).1⟩

/-- C6: reportIdentity inserts the identity when the node is unseen,
replaces the stored identity only when the logical timestamp is strictly
greater than the stored one, and otherwise fails with StaleIdentityReport
leaving the stored identity unchanged. -/
theorem C6_identity_timestamp_monotone (r : Registry) (k : String)
    (idrec : NodeIdentityRec) :
    (regFind r k = none →
      reportIdentity r k idrec = .ok (regSetIdentity r k idrec) ∧
      Registry.get (regSetIdentity r k idrec) k = .ok ⟨some idrec, none⟩) ∧
    (∀ e old, regFind r k = some e → e.identity = some old →
      (old.logicalTimestamp < idrec.logicalTimestamp →
        reportIdentity r k idrec = .ok (regSetIdentity r k idrec) ∧
        Registry.get (regSetIdentity r k idrec) k
          = .ok { e with identity := some idrec }) ∧
      (idrec.logicalTimestamp ≤ old.logicalTimestamp →
        reportIdentity r k idrec = .error .StaleIdentityReport ∧
        ∀ cfg s, s.registry = r →
          step cfg s (.identityReport k idrec) = (s, none))) := by
  constructor
  · intro hnone
    constructor
    · simp only [reportIdentity, hnone]
    · have hreg : regSetIdentity r k idrec = r ++ [(k, ⟨some idrec, none⟩)] := by
        simp only [regSetIdentity, hnone]
      rw [hreg]
      unfold Registry.get
      rw [regFind_append_self k _ r hnone]
  · intro e old hsome hid
    constructor
    · intro hlt
      constructor
      · simp only [reportIdentity, hsome, hid]
        rw [if_pos hlt]
      · have hreg : regSetIdentity r k idrec
            = setEntry r k { e with identity := some idrec } := by
          simp only [regSetIdentity, hsome]
        rw [hreg]
        unfold Registry.get
        rw [regFind_setEntry k _ r ⟨e, hsome⟩]
    · intro hge
      have herr : reportIdentity r k idrec = .error .StaleIdentityReport := by
        simp only [reportIdentity, hsome, hid]
        rw [if_neg (by omega)]
      refine ⟨herr, ?_⟩
      intro cfg s hreg
      refine step_identity_err cfg s k idrec .StaleIdentityReport ?_
      rw [hreg]
      exact herr

/-- A first example identity with logical timestamp 5. -/
def idA : NodeIdentityRec := { info := "addr-one", logicalTimestamp := 5 }

/-- A second example identity with the lower logical timestamp 4. -/
def idB : NodeIdentityRec := { info := "addr-two", logicalTimestamp := 4 }

theorem C6_witness :
    reportIdentity [] "A" idA = .ok (regSetIdentity [] "A" idA) ∧
    Registry.get (regSetIdentity [] "A" idA) "A" = .ok ⟨some idA, none⟩ ∧
    reportIdentity (regSetIdentity [] "A" idA) "A" idB
      = .error .StaleIdentityReport := by
  have h1 := (C6_identity_timestamp_monotone [] "A" idA).1 rfl
  have h2 := ((C6_identity_timestamp_monotone (regSetIdentity [] "A" idA) "A"
      idB).2 ⟨some idA, none⟩ idA (by decide) rfl).2 (by decide)
  exact ⟨h1.1, h1.2, h2.1⟩

/-- C7: looking up a node identifier absent from the registry fails with
NotFound rather than returning a value. -/
theorem C7_get_absent_not_found (r : Registry) (k : String)
    (habs : regFind r k = none) :
    Registry.get r k = .error .NotFound := by
  unfold Registry.get
  rw [habs]

theorem C7_witness :
    regFind ([] : Registry) "Z" = none ∧
    Registry.get ([] : Registry) "Z" = .error .NotFound :=
  ⟨rfl, C7_get_absent_not_found [] "Z" rfl⟩

/-- C8: in the top-K producer ranking, whenever two producers have equal
block counts within the current window, the tie is broken deterministically
by producer identifier ascending: the earlier entry has the strictly
smaller producer identifier. -/
theorem C8_ties_broken_by_producer_id (k : Nat) (prods : List Nat) :
    List.Pairwise (fun a b : Nat × Nat => a.2 = b.2 → a.1 < b.1)
      (deriveTopK k prods) := by
  have hsorted : List.Pairwise rankLE
      (List.insertionSort rankLE
        ((prods.dedup).map (fun p => (p, prods.count p)))) :=
    List.sorted_insertionSort rankLE _
  have hfst : ((prods.dedup).map (fun p => (p, prods.count p))).map Prod.fst
      = prods.dedup := by
    have hcomp : (Prod.fst ∘ fun p : Nat => (p, prods.count p)) = id := rfl
    rw [List.map_map, hcomp, List.map_id]
  have hperm : List.Perm ((List.insertionSort rankLE
      ((prods.dedup).map (fun p => (p, prods.count p)))).map Prod.fst)
      (((prods.dedup).map (fun p => (p, prods.count p))).map Prod.fst) :=
    (List.perm_insertionSort _ _).map Prod.fst
  have hnodup : ((List.insertionSort rankLE
      ((prods.dedup).map (fun p => (p, prods.count p)))).map Prod.fst).Nodup := by
    rw [hfst] at hperm
    exact hperm.nodup_iff.mpr (List.nodup_dedup prods)
  have hne : List.Pairwise (fun a b : Nat × Nat => a.1 ≠ b.1)
      (List.insertionSort rankLE
        ((prods.dedup).map (fun p => (p, prods.count p)))) :=
    (List.pairwise_map).mp hnodup
  have htake : List.Pairwise (fun a b : Nat × Nat => rankLE a b ∧ a.1 ≠ b.1)
      (deriveTopK k prods) :=
    List.Pairwise.sublist (List.take_sublist k _) (hsorted.and hne)
  refine htake.imp ?_
  intro a b hab heq
  have h5 : b.2 < a.2 ∨ (a.2 = b.2 ∧ a.1 ≤ b.1) := hab.1
  have h6 : a.1 ≠ b.1 := hab.2
  rcases h5 with h1 | ⟨h2, h3⟩
  · omega
  · omega

/-- Modelled from the spec: how a subscriber applies one received StateDelta
to its local copy of the state, mirroring the store's accepted mutation. -/
def applyDelta (cfg : AggConfig) (s : NetworkState) : StateDelta → NetworkState
  | .blockAdded h ev =>
      let base := match ev with
        | some _ => s.window.blocks.tail
        | none => s.window.blocks
      { window := ⟨s.window.capacity, base ++ [h]⟩
        agg := AggState.onInsert cfg (evApply cfg s.agg ev) h
        registry := s.registry }
  | .identityChanged k idrec =>
      { window := s.window
        agg := s.agg
        registry := regSetIdentity s.registry k idrec }
  | .stateChanged k st =>
      { window := s.window
        agg := s.agg
        registry := regSetState s.registry k st }

/-- Modelled from the spec: run the store over a mutation sequence,
collecting the final state and the stream of deltas of the accepted
mutations, in store-mutation order. -/
def runWithTrace (cfg : AggConfig) (s : NetworkState) :
    List Mutation → NetworkState × List StateDelta
  | [] => (s, [])
  | m :: ms =>
      match applyMutation cfg s m with
      | .ok (s2, d) =>
          let r := runWithTrace cfg s2 ms
          (r.1, d :: r.2)
      | .error _ => runWithTrace cfg s ms

/-- Modelled from the spec: the snapshot a subscriber takes after the first
j accepted mutations — the store state at delta sequence number j. -/
def stateAtSeq (cfg : AggConfig) (s : NetworkState) :
    Nat → List Mutation → NetworkState
  | _, [] => s
  | 0, _ :: _ => s
  | j+1, m :: ms =>
      match applyMutation cfg s m with
      | .ok (s2, _) => stateAtSeq cfg s2 j ms
      | .error _ => stateAtSeq cfg s (j+1) ms

/-- Attach consecutive sequence numbers, starting at j, to a delta stream. -/
def numberFrom (j : Nat) : List StateDelta → List (Nat × StateDelta)
  | [] => []
  | d :: ds => (j, d) :: numberFrom (j+1) ds

theorem stateAtSeq_zero (cfg : AggConfig) (s : NetworkState) :
    ∀ ms : List Mutation, stateAtSeq cfg s 0 ms = s
  | [] => rfl
  | _ :: _ => rfl

theorem reportIdentity_ok_eq (r : Registry) (k : String)
    (idrec : NodeIdentityRec) (r2 : Registry)
    (hok : reportIdentity r k idrec = .ok r2) :
    r2 = regSetIdentity r k idrec := by
  unfold reportIdentity at hok
  generalize hf : regFind r k = fr at hok
  cases fr with
  | none => exact (Except.ok.inj hok).symm
  | some e =>
      have hok2 : (match e.identity with
          | none => Except.ok (regSetIdentity r k idrec)
          | some old =>
              if old.logicalTimestamp < idrec.logicalTimestamp
              then Except.ok (regSetIdentity r k idrec)
              else (Except.error MutError.StaleIdentityReport
                : Except MutError Registry)) = Except.ok r2 := hok
      generalize hg : e.identity = oid at hok2
      cases oid with
      | none => exact (Except.ok.inj hok2).symm
      | some old =>
          have hok3 : (if old.logicalTimestamp < idrec.logicalTimestamp
              then Except.ok (regSetIdentity r k idrec)
              else (Except.error MutError.StaleIdentityReport
                : Except MutError Registry)) = Except.ok r2 := hok2
          by_cases hlt : old.logicalTimestamp < idrec.logicalTimestamp
          · rw [if_pos hlt] at hok3
            exact (Except.ok.inj hok3).symm
          · rw [if_neg hlt] at hok3
            cases hok3

theorem reportState_ok_eq (r : Registry) (k : String) (st : NodeStateRec)
    (bf : Bool) (r2 : Registry)
    (hok : reportState r k st bf = .ok r2) :
    r2 = regSetState r k st := by
  unfold reportState at hok
  generalize hf : regFind r k = fr at hok
  cases fr with
  | none => exact (Except.ok.inj hok).symm
  | some e =>
      have hok2 : (match e.nodeState with
          | none => Except.ok (regSetState r k st)
          | some old =>
              if st.blockHeight ≤ old.blockHeight ∧ bf = false
              then (Except.error MutError.StaleStateReport
                : Except MutError Registry)
              else Except.ok (regSetState r k st)) = Except.ok r2 := hok
      generalize hg : e.nodeState = ost at hok2
      cases ost with
      | none => exact (Except.ok.inj hok2).symm
      | some old =>
          have hok3 : (if st.blockHeight ≤ old.blockHeight ∧ bf = false
              then (Except.error MutError.StaleStateReport
                : Except MutError Registry)
              else Except.ok (regSetState r k st)) = Except.ok r2 := hok2
          by_cases hc : st.blockHeight ≤ old.blockHeight ∧ bf = false
          · rw [if_pos hc] at hok3
            cases hok3
          · rw [if_neg hc] at hok3
            exact (Except.ok.inj hok3).symm

theorem applyDelta_ok (cfg : AggConfig) (s : NetworkState) (m : Mutation)
    (s2 : NetworkState) (d : StateDelta) (hcap : 0 < s.window.capacity)
    (hok : applyMutation cfg s m = .ok (s2, d)) :
    applyDelta cfg s d = s2 := by
  cases m with
  | block h =>
      cases hi : s.window.insert h with
      | error e =>
          simp only [applyMutation, hi] at hok
          cases hok
      | ok p =>
          obtain ⟨w2, ev⟩ := p
          simp only [applyMutation, hi] at hok
          have hpair := Except.ok.inj hok
          have hs2 : ({ window := w2
                        agg := AggState.onInsert cfg (evApply cfg s.agg ev) h
                        registry := s.registry } : NetworkState) = s2 :=
            congrArg Prod.fst hpair
          have hd : StateDelta.blockAdded h ev = d := congrArg Prod.snd hpair
          rw [← hd, ← hs2]
          obtain ⟨hpush, _⟩ := insert_ok_push s.window h w2 ev hi
          simp only [HistoryWindow.push] at hpush
          by_cases hc : s.window.capacity < (s.window.blocks ++ [h]).length
          · rw [if_pos hc] at hpush
            have hev : ev = (s.window.blocks ++ [h]).head? :=
              congrArg Prod.snd hpush
            have hw2 : w2
                = ⟨s.window.capacity, (s.window.blocks ++ [h]).tail⟩ :=
              congrArg Prod.fst hpush
            cases hbs : s.window.blocks with
            | nil =>
                exfalso
                rw [hbs] at hc
                simp at hc
                omega
            | cons b rest =>
                rw [hbs] at hev hw2
                simp only [List.cons_append, List.head?_cons,
                  List.tail_cons] at hev hw2
                subst hev
                subst hw2
                simp [applyDelta, hbs]
          · rw [if_neg hc] at hpush
            have hev : ev = none := congrArg Prod.snd hpush
            have hw2 : w2 = ⟨s.window.capacity, s.window.blocks ++ [h]⟩ :=
              congrArg Prod.fst hpush
            subst hev
            subst hw2
            simp [applyDelta]
  | identityReport k idrec =>
      cases hr : reportIdentity s.registry k idrec with
      | error e =>
          simp only [applyMutation, hr] at hok
          cases hok
      | ok r2 =>
          simp only [applyMutation, hr] at hok
          have hpair := Except.ok.inj hok
          have hs2 : ({ s with registry := r2 } : NetworkState) = s2 :=
            congrArg Prod.fst hpair
          have hd : StateDelta.identityChanged k idrec = d :=
            congrArg Prod.snd hpair
          rw [← hd, ← hs2, reportIdentity_ok_eq s.registry k idrec r2 hr]
          simp [applyDelta]
  | stateReport k st bf =>
      cases hr : reportState s.registry k st bf with
      | error e =>
          simp only [applyMutation, hr] at hok
          cases hok
      | ok r2 =>
          simp only [applyMutation, hr] at hok
          have hpair := Except.ok.inj hok
          have hs2 : ({ s with registry := r2 } : NetworkState) = s2 :=
            congrArg Prod.fst hpair
          have hd : StateDelta.stateChanged k st = d :=
            congrArg Prod.snd hpair
          rw [← hd, ← hs2, reportState_ok_eq s.registry k st bf r2 hr]
          simp [applyDelta]

theorem replay_reconstructs (cfg : AggConfig) :
    ∀ (ms : List Mutation) (s : NetworkState) (j : Nat),
      0 < s.window.capacity →
      j ≤ (runWithTrace cfg s ms).2.length →
      List.foldl (applyDelta cfg) (stateAtSeq cfg s j ms)
        ((runWithTrace cfg s ms).2.drop j) = (runWithTrace cfg s ms).1 := by
  intro ms
  induction ms with
  | nil =>
      intro s j hcap hj
      simp [runWithTrace, stateAtSeq]
  | cons m ms ih =>
      intro s j hcap hj
      cases hm : applyMutation cfg s m with
      | error e =>
          have htr : runWithTrace cfg s (m :: ms) = runWithTrace cfg s ms := by
            simp only [runWithTrace, hm]
          rw [htr] at hj ⊢
          have hsa : stateAtSeq cfg s j (m :: ms) = stateAtSeq cfg s j ms := by
            cases j with
            | zero => rw [stateAtSeq_zero, stateAtSeq_zero]
            | succ j2 => simp only [stateAtSeq, hm]
          rw [hsa]
          exact ih s j hcap hj
      | ok p =>
          obtain ⟨s2, d⟩ := p
          have hcap2 : 0 < s2.window.capacity := by
            have hstep : step cfg s m = (s2, some d) := by
              simp only [step, hm]
            have hc := step_capacity cfg s m
            rw [hstep] at hc
            have hc2 : s2.window.capacity = s.window.capacity := hc
            omega
          have htr : runWithTrace cfg s (m :: ms)
              = ((runWithTrace cfg s2 ms).1,
                 d :: (runWithTrace cfg s2 ms).2) := by
            simp only [runWithTrace, hm]
          rw [htr] at hj ⊢
          cases j with
          | zero =>
              rw [stateAtSeq_zero]
              have hd : applyDelta cfg s d = s2 :=
                applyDelta_ok cfg s m s2 d hcap hm
              rw [List.drop_zero, List.foldl_cons, hd]
              have hrest := ih s2 0 hcap2 (Nat.zero_le _)
              rw [stateAtSeq_zero, List.drop_zero] at hrest
              exact hrest
          | succ j2 =>
              have hsa : stateAtSeq cfg s (j2 + 1) (m :: ms)
                  = stateAtSeq cfg s2 j2 ms := by
                simp only [stateAtSeq, hm]
              rw [hsa]
              have hdrop : (d :: (runWithTrace cfg s2 ms).2).drop (j2 + 1)
                  = (runWithTrace cfg s2 ms).2.drop j2 := rfl
              rw [hdrop]
              refine ih s2 j2 hcap2 ?_
              have hj2 := hj
              simp only [List.length_cons] at hj2
              omega

theorem numberFrom_drop :
    ∀ (ds : List StateDelta) (j k : Nat), j ≤ ds.length →
      (numberFrom k ds).drop j = numberFrom (k + j) (ds.drop j) := by
  intro ds
  induction ds with
  | nil =>
      intro j k hj
      have hz : j = 0 := Nat.le_zero.mp hj
      rw [hz]
      rfl
  | cons d ds ih =>
      intro j k hj
      cases j with
      | zero =>
          simp [numberFrom]
      | succ j2 =>
          have h1 : (numberFrom k (d :: ds)).drop (j2 + 1)
              = (numberFrom (k + 1) ds).drop j2 := rfl
          have h2 : j2 ≤ ds.length := by
            simp only [List.length_cons] at hj
            omega
          rw [h1, ih j2 (k + 1) h2]
          have h3 : k + 1 + j2 = k + (j2 + 1) := by omega
          rw [h3]
          rfl

theorem runWithTrace_fst (cfg : AggConfig) :
    ∀ (ms : List Mutation) (s : NetworkState),
      (runWithTrace cfg s ms).1 = runFrom cfg s ms := by
  intro ms
  induction ms with
  | nil => intro s; rfl
  | cons m ms ih =>
      intro s
      cases hm : applyMutation cfg s m with
      | error e =>
          have h1 : runWithTrace cfg s (m :: ms) = runWithTrace cfg s ms := by
            simp only [runWithTrace, hm]
          have h2 : (step cfg s m).1 = s := by
            simp only [step, hm]
          have h3 : runFrom cfg s (m :: ms)
              = runFrom cfg (step cfg s m).1 ms := rfl
          rw [h1, ih s, h3, h2]
      | ok p =>
          obtain ⟨s2, d⟩ := p
          have h1 : (runWithTrace cfg s (m :: ms)).1
              = (runWithTrace cfg s2 ms).1 := by
            simp only [runWithTrace, hm]
          have h2 : (step cfg s m).1 = s2 := by
            simp only [step, hm]
          have h3 : runFrom cfg s (m :: ms)
              = runFrom cfg (step cfg s m).1 ms := rfl
          rw [h1, ih s2, h3, h2]

/-- C4: a subscriber that completes its snapshot at store-mutation sequence
number S reconstructs, by applying the deltas with sequence numbers greater
than S in order, exactly the final state observed by a subscriber connected
from the start; the observed delta stream carries the consecutive sequence
numbers S+1, S+2, …, with no gaps and no duplicates. -/
theorem C4_snapshot_plus_deltas_reconstructs (cfg : AggConfig) (n : Nat)
    (ms : List Mutation) (sq : Nat) (hn : 0 < n)
    (hsq : sq ≤ (runWithTrace cfg (initState cfg n) ms).2.length) :
    List.foldl (applyDelta cfg) (stateAtSeq cfg (initState cfg n) sq ms)
        ((runWithTrace cfg (initState cfg n) ms).2.drop sq)
      = (runWithTrace cfg (initState cfg n) ms).1 ∧
    (runWithTrace cfg (initState cfg n) ms).1 = runStore cfg n ms ∧
    (numberFrom 1 (runWithTrace cfg (initState cfg n) ms).2).drop sq
      = numberFrom (sq + 1)
          ((runWithTrace cfg (initState cfg n) ms).2.drop sq) := by
  refine ⟨replay_reconstructs cfg ms (initState cfg n) sq hn hsq,
    runWithTrace_fst cfg ms (initState cfg n), ?_⟩
  rw [numberFrom_drop _ sq 1 hsq]
  rw [Nat.add_comm 1 sq]

theorem C4_witness :
    0 < 2 ∧
    2 ≤ (runWithTrace unitConfig (initState unitConfig 2) exampleBlocks).2.length ∧
    (List.foldl (applyDelta unitConfig)
        (stateAtSeq unitConfig (initState unitConfig 2) 2 exampleBlocks)
        ((runWithTrace unitConfig (initState unitConfig 2) exampleBlocks).2.drop 2)
      = (runWithTrace unitConfig (initState unitConfig 2) exampleBlocks).1 ∧
    (runWithTrace unitConfig (initState unitConfig 2) exampleBlocks).1
      = runStore unitConfig 2 exampleBlocks ∧
    (numberFrom 1
        (runWithTrace unitConfig (initState unitConfig 2) exampleBlocks).2).drop 2
      = numberFrom 3
          ((runWithTrace unitConfig
            (initState unitConfig 2) exampleBlocks).2.drop 2)) :=
  ⟨by decide, by decide,
    C4_snapshot_plus_deltas_reconstructs unitConfig 2 exampleBlocks 2
      (by decide) (by decide)⟩

/-- Modelled from the spec: the reason a subscriber session was closed. -/
inductive CloseReason where
  | subscriberOverflow
  | clientDisconnect
deriving Repr, DecidableEq

/-- Modelled from the spec: the lifecycle status of a subscriber session. -/
inductive SessionStatus where
  | active
  | closed (reason : CloseReason)
deriving Repr, DecidableEq

/-- Modelled from the spec: one subscriber session — its identifier, its
bounded delivery queue with the configured capacity, and its status. -/
structure Session where
  sid : Nat
  qcapacity : Nat
  queue : List StateDelta
  status : SessionStatus
deriving Repr, DecidableEq

/-- Modelled from the spec: deliver one delta to one session — an active
session with a full queue is forcibly closed with SubscriberOverflow, an
active session with room enqueues the delta, and a closed session is left
untouched. -/
def deliver (d : StateDelta) (ses : Session) : Session :=
  match ses.status with
  | .closed _ => ses
  | .active =>
      if ses.queue.length < ses.qcapacity then
        { ses with queue := ses.queue ++ [d] }
      else
        { ses with status := .closed .subscriberOverflow }

/-- Modelled from the spec: fan one delta out to every session, each session
handled independently of the others. -/
def broadcast (d : StateDelta) (ss : List Session) : List Session :=
  ss.map (deliver d)

/-- Modelled from the spec: the relay composed with the store — the
single-writer store applies the mutation first, and the delta of an
accepted mutation is then fanned out to the sessions. -/
structure RelayState where
  store : NetworkState
  sessions : List Session
deriving DecidableEq

/-- Modelled from the spec: one ingestion step of the relay. -/
def relayStep (cfg : AggConfig) (rs : RelayState) (m : Mutation) : RelayState :=
  match step cfg rs.store m with
  | (s2, some d) => { store := s2, sessions := broadcast d rs.sessions }
  | (s2, none) => { store := s2, sessions := rs.sessions }

theorem relayStep_store (cfg : AggConfig) (rs : RelayState) (m : Mutation) :
    (relayStep cfg rs m).store = (step cfg rs.store m).1 := by
  unfold relayStep
  cases hs : step cfg rs.store m with
  | mk s2 od =>
      cases od with
      | none => rfl
      | some d => rfl

/-- C9: when a session's bounded queue overflows, that session alone is
closed with SubscriberOverflow; each session's fate under a broadcast
depends only on its own previous state, an active session with room keeps
receiving deltas, and the store's ingestion result never depends on the
sessions at all. -/
theorem C9_subscriber_overflow_isolated :
    (∀ (d : StateDelta) (ss : List Session) (i : Nat) (ses : Session),
      ss[i]? = some ses → (broadcast d ss)[i]? = some (deliver d ses)) ∧
    (∀ (d : StateDelta) (ses : Session), ses.status = .active →
      ses.qcapacity ≤ ses.queue.length →
      deliver d ses = { ses with status := .closed .subscriberOverflow }) ∧
    (∀ (d : StateDelta) (ses : Session), ses.status = .active →
      ses.queue.length < ses.qcapacity →
      deliver d ses = { ses with queue := ses.queue ++ [d] }) ∧
    (∀ (d : StateDelta) (ses : Session) (r : CloseReason),
      ses.status = .closed r → deliver d ses = ses) ∧
    (∀ (cfg : AggConfig) (m : Mutation) (rs rs2 : RelayState),
      rs.store = rs2.store →
      (relayStep cfg rs m).store = (relayStep cfg rs2 m).store) := by
  refine ⟨?_, ?_, ?_, ?_, ?_⟩
  · intro d ss i ses h
    simp [broadcast, List.getElem?_map, h]
  · intro d ses hact hfull
    simp only [deliver, hact]
    rw [if_neg (by omega)]
  · intro d ses hact hroom
    simp only [deliver, hact]
    rw [if_pos hroom]
  · intro d ses r hclosed
    simp only [deliver, hclosed]
  · intro cfg m rs rs2 he
    rw [relayStep_store, relayStep_store, he]

/-- A session whose single-slot queue is already full. -/
def fullSession : Session :=
  { sid := 1
    qcapacity := 1
    queue := [.stateChanged "A" (stRec 1)]
    status := .active }

/-- An independent healthy session with room in its queue. -/
def freeSession : Session :=
  { sid := 2
    qcapacity := 4
    queue := []
    status := .active }

/-- The delta broadcast in the overflow example. -/
def demoDelta : StateDelta := .stateChanged "B" (stRec 2)

theorem C9_witness :
    deliver demoDelta fullSession
      = { fullSession with status := .closed .subscriberOverflow } ∧
    deliver demoDelta freeSession
      = { freeSession with queue := freeSession.queue ++ [demoDelta] } ∧
    (broadcast demoDelta [fullSession, freeSession])[1]?
      = some (deliver demoDelta freeSession) := by
  refine ⟨?_, ?_, ?_⟩
  · exact C9_subscriber_overflow_isolated.2.1 demoDelta fullSession rfl
      (by decide)
  · exact C9_subscriber_overflow_isolated.2.2.1 demoDelta freeSession rfl
      (by decide)
  · exact C9_subscriber_overflow_isolated.1 demoDelta
      [fullSession, freeSession] 1 freeSession (by decide)

/-- Embedded from the source (lib.rs, trait Storage): a storage
implementation with separate Get and Set associated types; get takes the
store by immutable reference, so it is a pure function of the state, while
set takes it mutably and produces the updated state. -/
structure StorageImpl (S G V : Type) where
  get : S → G
  set : S → V → S

/-- A call against the Storage interface. -/
inductive StorageOp (V : Type) where
  | getOp
  | setOp (v : V)

/-- Run a list of Storage calls, threading the state and collecting the
values returned by the get calls. -/
def runStorageOps {S G V : Type} (impl : StorageImpl S G V) (s : S) :
    List (StorageOp V) → S × List G
  | [] => (s, [])
  | .getOp :: ops =>
      let r := runStorageOps impl s ops
      (r.1, impl.get s :: r.2)
  | .setOp v :: ops => runStorageOps impl (impl.set s v) ops

/-- Embedded from the source (lib.rs, trait KeyValueStorage): a key-value
storage implementation; get takes the store by immutable reference and a
key, set takes the store mutably. -/
structure KeyValueStorageImpl (S K V : Type) where
  get : S → K → V
  set : S → K → V → S

/-- A call against the KeyValueStorage interface. -/
inductive KVOp (K V : Type) where
  | getOp (k : K)
  | setOp (k : K) (v : V)

/-- Run a list of KeyValueStorage calls, threading the state and collecting
the values returned by the get calls. -/
def runKVOps {S K V : Type} (impl : KeyValueStorageImpl S K V) (s : S) :
    List (KVOp K V) → S × List V
  | [] => (s, [])
  | .getOp k :: ops =>
      let r := runKVOps impl s ops
      (r.1, impl.get s k :: r.2)
  | .setOp k v :: ops => runKVOps impl (impl.set s k v) ops

/-- Whether a Storage call is a get. -/
def StorageOp.isGet {V : Type} : StorageOp V → Bool
  | .getOp => true
  | .setOp _ => false

/-- Whether a KeyValueStorage call is a get. -/
def KVOp.isGet {K V : Type} : KVOp K V → Bool
  | .getOp _ => true
  | .setOp _ _ => false

/-- C10: in both storage traits, get takes the store by immutable reference,
so performing any number of get calls leaves the stored state unchanged —
only set can mutate the store. -/
theorem C10_get_leaves_state_unchanged :
    (∀ (S G V : Type) (impl : StorageImpl S G V) (s : S)
      (ops : List (StorageOp V)), (∀ op ∈ ops, op.isGet = true) →
      (runStorageOps impl s ops).1 = s) ∧
    (∀ (S K V : Type) (impl : KeyValueStorageImpl S K V) (s : S)
      (ops : List (KVOp K V)), (∀ op ∈ ops, op.isGet = true) →
      (runKVOps impl s ops).1 = s) := by
  constructor
  · intro S G V impl s ops
    induction ops with
    | nil => intro _; rfl
    | cons op ops ih =>
        intro hall
        cases op with
        | getOp =>
            have h2 : (runStorageOps impl s (.getOp :: ops)).1
                = (runStorageOps impl s ops).1 := rfl
            rw [h2]
            exact ih (fun o ho => hall o (List.mem_cons_of_mem _ ho))
        | setOp v =>
            exfalso
            have hbad := hall (.setOp v) (List.mem_cons_self _ _)
            simp [StorageOp.isGet] at hbad
  · intro S K V impl s ops
    induction ops with
    | nil => intro _; rfl
    | cons op ops ih =>
        intro hall
        cases op with
        | getOp k =>
            have h2 : (runKVOps impl s (.getOp k :: ops)).1
                = (runKVOps impl s ops).1 := rfl
            rw [h2]
            exact ih (fun o ho => hall o (List.mem_cons_of_mem _ ho))
        | setOp k v =>
            exfalso
            have hbad := hall (.setOp k v) (List.mem_cons_self _ _)
            simp [KVOp.isGet] at hbad

/-- A concrete Storage implementation over natural numbers. -/
def natStorage : StorageImpl Nat Nat Nat :=
  { get := fun s => s, set := fun _ v => v }

/-- A concrete KeyValueStorage implementation over natural numbers. -/
def natKVStorage : KeyValueStorageImpl Nat Nat Nat :=
  { get := fun s k => s + k, set := fun s _ v => s + v }

theorem C10_witness :
    (∀ op ∈ ([.getOp, .getOp] : List (StorageOp Nat)), op.isGet = true) ∧
    (runStorageOps natStorage 7 [.getOp, .getOp]).1 = 7 ∧
    (runKVOps natKVStorage 7 [.getOp 1, .getOp 2]).1 = 7 := by
  refine ⟨by decide, ?_, ?_⟩
  · exact C10_get_leaves_state_unchanged.1 Nat Nat Nat natStorage 7
      [.getOp, .getOp] (by decide)
  · exact C10_get_leaves_state_unchanged.2 Nat Nat Nat natKVStorage 7
      [.getOp 1, .getOp 2] (by decide)
